import Mathlib

/-!
# DevLog_AI retrieval core — shallow embedding and verification

This file embeds the retrieval/score-fusion core of the DevLog_AI backend
(`backend/services/agent/brain_agent.py`, `backend/services/database.py`,
`backend/llm/base.py`) into Lean and proves the spec's testable properties
about it.

Modelling conventions:
* Python floats are modelled as real numbers (`ℝ`); exact real arithmetic is
  the intended semantics of the score fusion.
* Epoch-millisecond timestamps are integers (`ℤ`).  Dates in an intent's
  `date_range` are modelled as integer day indices; `dayMs d` is the epoch
  timestamp of midnight of day `d`, so that `strptime`/`timestamp()*1000`
  becomes `dayMs` and `end + timedelta(days=1)` becomes `e + 1`.
* A raised Python exception in a modelled function is an `Option`/`Except`
  `none`/`error` result.
* `list.sort(key=..., reverse=True)` is a stable descending sort; it is
  modelled by the insertion sort `sortD`, whose stability, sortedness and
  permutation properties are proved below (a stable sort is uniquely
  determined by these, so any stable implementation agrees with CPython's).
-/

namespace DevLog

/-- A tag attached to a log record (`{name, category}` objects in `tags_json`). -/
structure Tag where
  name : String
  category : String
deriving DecidableEq, Repr

/-- A row of the `logs` table, as returned by the accessors in
`backend/services/database.py`. -/
structure LogRecord where
  id : String
  content : String
  timestamp : ℤ
  tags : List Tag
  source : String
  summary : Option String
deriving DecidableEq, Repr

/-- A retrieved log: the projection of a log that `BrainAgent._retrieve_logs`
accumulates, together with its `retrieval_score`.  The date/tag channels keep
the full log dict and the semantic channel rebuilds `{id, content, timestamp,
tags, retrieval_score}`; only the common fields are observable downstream, so
the model uniformly keeps those plus the score. -/
structure RLog where
  id : String
  content : String
  timestamp : ℤ
  tags : List Tag
  retrieval_score : ℝ

/-- A row of the `log_embeddings ⋈ logs` join returned by
`get_log_embeddings`. -/
structure EmbRecord where
  id : String
  embedding : List ℝ
  content : String
  timestamp : ℤ
  tags : List Tag

/-- The structured intent produced by `_parse_intent` (already parsed:
`date_range` as inclusive day indices, `tags`, `needs_rag`).  The
`semantic_query` text only feeds the external embedding provider, whose output
is passed to the retrieval model directly as the query vector. -/
structure Intent where
  date_range : Option (ℤ × ℤ)
  tags : List String
  needs_rag : Bool

/-- The SQLite database visible to this core: the `logs` table and the
`log_embeddings` table (keyed by `log_id`, one row per log id). -/
structure DB where
  logs : List LogRecord
  embeddings : List (String × List ℝ)

/-- Epoch milliseconds of midnight of integer day `d`
(models `datetime.strptime(.., "%Y-%m-%d").timestamp() * 1000`). -/
def dayMs (d : ℤ) : ℤ := d * 86400000

/-! ## A stable descending sort

`sortD r` is an insertion sort: an element is inserted before the first
element `y` it relates to (`r x y`).  With `r x y := key y ≤ key x` and the
`foldr` orientation below, this is exactly a stable sort descending by `key`,
which is the observable behaviour of CPython's `list.sort(key=.., reverse=True)`.
-/

/-- Insert `x` before the first element it `r`-relates to. -/
def insertD (r : α → α → Prop) [DecidableRel r] (x : α) : List α → List α
  | [] => [x]
  | y :: ys => if r x y then x :: y :: ys else y :: insertD r x ys

/-- Stable sort: elements inserted right-to-left, so an earlier element is
placed before any equal-key later element. -/
def sortD (r : α → α → Prop) [DecidableRel r] (l : List α) : List α :=
  l.foldr (insertD r) []

variable {r : α → α → Prop} [DecidableRel r]

theorem insertD_perm (x : α) (l : List α) :
    List.Perm (insertD r x l) (x :: l) := by
  induction l with
  | nil => rfl
  | cons y ys ih =>
    by_cases h : r x y
    · simp [insertD, h]
    · simp only [insertD, if_neg h]
      exact ((ih.cons y).trans (List.Perm.swap x y ys))

theorem sortD_perm (l : List α) : List.Perm (sortD r l) l := by
  induction l with
  | nil => rfl
  | cons x xs ih => exact (insertD_perm x (sortD r xs)).trans (ih.cons x)

theorem insertD_pairwise (htot : ∀ a b, r a b ∨ r b a) (htrans : Transitive r)
    (x : α) {l : List α} (hl : l.Pairwise r) : (insertD r x l).Pairwise r := by
  induction l with
  | nil => simp [insertD]
  | cons y ys ih =>
    rcases List.pairwise_cons.mp hl with ⟨hy, hys⟩
    by_cases h : r x y
    · simp only [insertD, if_pos h]
      refine List.pairwise_cons.mpr ⟨?_, hl⟩
      intro b hb
      rcases List.mem_cons.mp hb with rfl | hb
      · exact h
      · exact htrans h (hy b hb)
    · simp only [insertD, if_neg h]
      refine List.pairwise_cons.mpr ⟨?_, ih hys⟩
      intro b hb
      have hb' := (insertD_perm x ys).mem_iff.mp hb
      rcases List.mem_cons.mp hb' with rfl | hb'
      · exact (htot y b).resolve_right h
      · exact hy b hb'

theorem sortD_pairwise (htot : ∀ a b, r a b ∨ r b a) (htrans : Transitive r)
    (l : List α) : (sortD r l).Pairwise r := by
  induction l with
  | nil => simp [sortD]
  | cons x xs ih => exact insertD_pairwise htot htrans x ih

theorem sublist_insertD (x : α) (l : List α) : List.Sublist l (insertD r x l) := by
  induction l with
  | nil => simp [insertD]
  | cons y ys ih =>
    by_cases h : r x y
    · simp only [insertD, if_pos h]
      exact (List.Sublist.refl (y :: ys)).cons x
    · simp only [insertD, if_neg h]
      exact ih.cons₂ y

/-- If `r x b`, inserting `x` places it before every occurrence of `b`. -/
theorem insertD_before {x b : α} (hxb : r x b) {l : List α} (hb : b ∈ l) :
    List.Sublist [x, b] (insertD r x l) := by
  induction l with
  | nil => simp at hb
  | cons y ys ih =>
    by_cases h : r x y
    · simp only [insertD, if_pos h]
      exact (List.singleton_sublist.mpr hb).cons₂ x
    · simp only [insertD, if_neg h]
      rcases List.mem_cons.mp hb with rfl | hb'
      · exact absurd hxb h
      · exact (ih hb').cons y

/-- Stability: if `a` occurs before `b` in `l` and `r a b` (in particular when
their keys are equal), then `a` stays before `b` in the sorted list. -/
theorem sortD_stable {a b : α} (hab : r a b) {l : List α}
    (h : List.Sublist [a, b] l) : List.Sublist [a, b] (sortD r l) := by
  induction l with
  | nil => simp at h
  | cons y ys ih =>
    cases h with
    | cons _ h =>
      exact (ih h).trans (sublist_insertD y (sortD r ys))
    | cons₂ _ h =>
      have hb : b ∈ sortD r ys :=
        (sortD_perm ys).mem_iff.mpr (List.singleton_sublist.mp h)
      exact insertD_before hab hb

/-- A list already sorted under `r` is fixed by `sortD`. -/
theorem sortD_eq_self_of_pairwise {l : List α} (hl : l.Pairwise r) :
    sortD r l = l := by
  induction l with
  | nil => rfl
  | cons x xs ih =>
    rcases List.pairwise_cons.mp hl with ⟨hx, hxs⟩
    have : sortD r (x :: xs) = insertD r x (sortD r xs) := rfl
    rw [this, ih hxs]
    cases xs with
    | nil => rfl
    | cons y ys => simp [insertD, hx y (List.mem_cons_self y ys)]

theorem insertD_append_of_rel {x : α} {l₂ : List α} (h₂ : ∀ b ∈ l₂, r x b)
    (l₁ : List α) : insertD r x (l₁ ++ l₂) = insertD r x l₁ ++ l₂ := by
  induction l₁ with
  | nil =>
    cases l₂ with
    | nil => rfl
    | cons b bs => simp [insertD, h₂ b (List.mem_cons_self b bs)]
  | cons y ys ih =>
    by_cases h : r x y
    · simp [insertD, h]
    · simp [insertD, h, ih]

/-- If every element of `l₁` relates to every element of `l₂`, the stable sort
of the concatenation splits. -/
theorem sortD_append {l₁ l₂ : List α} (h : ∀ a ∈ l₁, ∀ b ∈ l₂, r a b) :
    sortD r (l₁ ++ l₂) = sortD r l₁ ++ sortD r l₂ := by
  induction l₁ with
  | nil => simp [sortD]
  | cons x xs ih =>
    have hx : ∀ b ∈ sortD r l₂, r x b := fun b hb =>
      h x (List.mem_cons_self x xs) b ((sortD_perm l₂).mem_iff.mp hb)
    have : sortD r ((x :: xs) ++ l₂) = insertD r x (sortD r (xs ++ l₂)) := rfl
    rw [this, ih (fun a ha => h a (List.mem_cons_of_mem x ha)),
      insertD_append_of_rel hx]
    rfl

/-! ## Cosine similarity (`cosine_similarity` in `brain_agent.py`)

`np.dot` raises `ValueError` on two 1-D arrays of different lengths, which the
model renders as `none`; the zero-norm guard and the division mirror the
source.  `np.linalg.norm v = Real.sqrt (dotP v v)`. -/

/-- `np.dot` on two equal-length 1-D arrays. -/
def dotP (v1 v2 : List ℝ) : ℝ := (List.zipWith (· * ·) v1 v2).sum

/-- `np.linalg.norm` of a 1-D array. -/
noncomputable def normv (v : List ℝ) : ℝ := Real.sqrt (dotP v v)

/-- `cosine_similarity(vec1, vec2)`: `none` models the `ValueError` that
`np.dot` raises when the shapes differ; otherwise the zero-norm check and the
normalized dot product, as in the source. -/
noncomputable def cosine_similarity (v1 v2 : List ℝ) : Option ℝ :=
  if v1.length = v2.length then
    if normv v1 = 0 ∨ normv v2 = 0 then some 0
    else some (dotP v1 v2 / (normv v1 * normv v2))
  else none

/-! ## Database accessors (`backend/services/database.py`)

Every query orders rows by `timestamp DESC`; the model renders `ORDER BY
timestamp DESC` as the stable descending sort `sortD tsGe` of the stored
rows. -/

/-- Descending-timestamp ordering used by all `ORDER BY timestamp DESC`
queries. -/
def tsGe (a b : LogRecord) : Prop := b.timestamp ≤ a.timestamp

instance : DecidableRel tsGe :=
  fun a b => inferInstanceAs (Decidable (b.timestamp ≤ a.timestamp))

/-- `get_all_logs(limit)`: all logs, newest first, at most `limit`. -/
def get_all_logs (limit : ℕ) (db : DB) : List LogRecord :=
  (sortD tsGe db.logs).take limit

/-- `get_logs_by_date_range(start_ts, end_ts)`: logs with
`start_ts <= timestamp <= end_ts`, newest first. -/
def get_logs_by_date_range (start_ts end_ts : ℤ) (db : DB) : List LogRecord :=
  (sortD tsGe db.logs).filter
    (fun l => start_ts ≤ l.timestamp ∧ l.timestamp ≤ end_ts)

/-- Python `str.lower()`: lowercase character by character
(`String.toLower`, written on the underlying character list so that concrete
instances reduce). -/
def strLower (s : String) : String := ⟨s.data.map Char.toLower⟩

/-- `get_logs_by_tags(tag_names)`: logs one of whose tag names, lowercased,
occurs in the lowercased query names (case-insensitive exact-name match,
filtered in Python after the ordered full scan). -/
def get_logs_by_tags (tag_names : List String) (db : DB) : List LogRecord :=
  let tag_names_lower := tag_names.map strLower
  (sortD tsGe db.logs).filter
    (fun l => l.tags.any (fun t => tag_names_lower.contains (strLower t.name)))

/-- `get_log_embeddings()`: the `log_embeddings ⋈ logs` join on `log_id`,
ordered by the log's timestamp, newest first. -/
def get_log_embeddings (db : DB) : List EmbRecord :=
  (sortD tsGe db.logs).filterMap
    (fun l => (db.embeddings.lookup l.id).map
      (fun v => ⟨l.id, v, l.content, l.timestamp, l.tags⟩))

/-! ## The retrieval channels (`BrainAgent._retrieve_logs`)

The source keeps a `results` list and a `seen_ids` set updated in lock-step;
before the fallback (which is the only later reader of neither) `seen_ids` is
always exactly the set of ids of `results`, so the model keeps only the
`results` list and tests membership on its ids. -/

/-- Does an accumulated entry with this id exist (`log["id"] in seen_ids`)? -/
def containsId (st : List RLog) (i : String) : Bool :=
  st.any (fun rl => rl.id = i)

/-- The ids of the accumulated entries, in order. -/
def idsOf (st : List RLog) : List String := st.map (fun r => r.id)

/-- The score of the first accumulated entry with the given id, if any. -/
def scoreOf? (st : List RLog) (i : String) : Option ℝ :=
  (st.find? (fun r => r.id = i)).map (fun r => r.retrieval_score)

/-- Project a log to a retrieved log with the given score
(`log["retrieval_score"] = s`). -/
def toRLog (l : LogRecord) (s : ℝ) : RLog :=
  ⟨l.id, l.content, l.timestamp, l.tags, s⟩

/-- Add `δ` to the score of the first entry with the given id
(`for r in results: if r["id"] == log_id: r["retrieval_score"] += δ; break`). -/
def boostFirst (i : String) (δ : ℝ) : List RLog → List RLog
  | [] => []
  | rl :: rest =>
    if rl.id = i then { rl with retrieval_score := rl.retrieval_score + δ } :: rest
    else rl :: boostFirst i δ rest

/-- Channel 1, one log: insert with score 1.0 unless the id was seen. -/
noncomputable def dateStep (st : List RLog) (l : LogRecord) : List RLog :=
  if containsId st l.id then st else st ++ [toRLog l 1.0]

/-- Channel 1 (date range): every returned log inserted with score 1.0. -/
noncomputable def dateChannel (logs : List LogRecord) (st : List RLog) : List RLog :=
  logs.foldl dateStep st

/-- Channel 2, one log: boost an existing entry by 0.3, else insert at 0.3. -/
noncomputable def tagStep (st : List RLog) (l : LogRecord) : List RLog :=
  if containsId st l.id then boostFirst l.id 0.3 st
  else st ++ [toRLog l 0.3]

/-- Channel 2 (tag match). -/
noncomputable def tagChannel (logs : List LogRecord) (st : List RLog) : List RLog :=
  logs.foldl tagStep st

/-- Channel 3, one corpus tuple with its similarity already computed:
discard at `sim ≤ 0.3`, boost an existing entry by `sim * 0.7`, else insert
the rebuilt `{id, content, timestamp, tags}` entry at `sim * 0.7`. -/
noncomputable def semStep (sim : ℝ) (e : EmbRecord) (st : List RLog) : List RLog :=
  if sim > 0.3 then
    if containsId st e.id then boostFirst e.id (sim * 0.7) st
    else st ++ [⟨e.id, e.content, e.timestamp, e.tags, sim * 0.7⟩]
  else st

/-- Channel 3 (semantic search).  A `cosine_similarity` failure raises inside
the loop: the whole channel stops, keeping the contributions accumulated so
far (the per-channel `try/except` in the source). -/
noncomputable def semChannel (qEmb : List ℝ) : List EmbRecord → List RLog → List RLog
  | [], st => st
  | e :: rest, st =>
    match cosine_similarity qEmb e.embedding with
    | none => st
    | some sim => semChannel qEmb rest (semStep sim e st)

/-- Descending-score ordering of `results.sort(key=.., reverse=True)`. -/
def scoreGe (a b : RLog) : Prop := b.retrieval_score ≤ a.retrieval_score

noncomputable instance : DecidableRel scoreGe :=
  fun a b => Real.decidableLE b.retrieval_score a.retrieval_score

/-- `results` after channel 1: if `intent["date_range"]` is set, the logs of
the end-inclusive window (`end` advanced one day), each scored 1.0. -/
noncomputable def stage1 (intent : Intent) (db : DB) : List RLog :=
  match intent.date_range with
  | some (s, e) =>
      dateChannel (get_logs_by_date_range (dayMs s) (dayMs (e + 1)) db) []
  | none => []

/-- `results` after channel 2: if `intent["tags"]` is non-empty, the
tag-matching logs folded in at weight 0.3. -/
noncomputable def stage2 (intent : Intent) (db : DB) : List RLog :=
  if intent.tags.isEmpty then stage1 intent db
  else tagChannel (get_logs_by_tags intent.tags db) (stage1 intent db)

/-- The accumulated entries after the three channels (`results` just before
the fallback check).  `qEmb` is the query embedding the (out-of-scope)
embedding provider returned for `semantic_query`. -/
noncomputable def accumulate (intent : Intent) (qEmb : List ℝ) (db : DB) :
    List RLog :=
  if intent.needs_rag then semChannel qEmb (get_log_embeddings db) (stage2 intent db)
  else stage2 intent db

/-- The accumulated entries after the fallback: if nothing was accumulated,
the 20 most recent logs, each scored 0.1. -/
noncomputable def finalResults (intent : Intent) (qEmb : List ℝ) (db : DB) :
    List RLog :=
  if (accumulate intent qEmb db).isEmpty then
    (get_all_logs 20 db).map (fun l => toRLog l 0.1)
  else accumulate intent qEmb db

/-- `BrainAgent._retrieve_logs`: channels, fallback, stable sort by score
descending, truncation to 20. -/
noncomputable def retrieve_logs (intent : Intent) (qEmb : List ℝ) (db : DB) :
    List RLog :=
  (sortD scoreGe (finalResults intent qEmb db)).take 20

/-! ## `_retrieve_logs` with fallible collaborator calls

For the error-handling claim the store and embedding calls are modelled as
already-delivered `Except` results.  The source wraps channel 1 (including the
date parsing) and channel 3 (including `compute_embedding`) in `try/except`
blocks; the channel-2 call `get_logs_by_tags(intent["tags"])` has no handler,
so its exception leaves `_retrieve_logs`. -/

/-- `_retrieve_logs` where each collaborator call may fail.  `dateRes`,
`tagRes`, `qEmbRes`, `embRes` are the outcomes of `get_logs_by_date_range`,
`get_logs_by_tags`, `compute_embedding` and `get_log_embeddings`; `recent` is
the fallback `get_all_logs(limit=20)` result. -/
noncomputable def retrieve_logs_f (intent : Intent)
    (dateRes : Except String (List LogRecord))
    (tagRes : Except String (List LogRecord))
    (qEmbRes : Except String (List ℝ))
    (embRes : Except String (List EmbRecord))
    (recent : List LogRecord) : Except String (List RLog) :=
  -- channel 1: `try/except` — an error is logged and the channel is skipped
  let st1 := match intent.date_range with
    | some _ =>
        match dateRes with
        | .ok logs => dateChannel logs []
        | .error _ => []
    | none => []
  -- channel 2: no `try/except` — an error propagates out of `_retrieve_logs`
  match (if intent.tags.isEmpty then .ok st1
      else tagRes.map (fun logs => tagChannel logs st1) :
      Except String (List RLog)) with
  | .error e => .error e
  | .ok st2 =>
    -- channel 3: `try/except` around embedding call and corpus fetch
    let st3 := if intent.needs_rag then
        match qEmbRes with
        | .error _ => st2
        | .ok q =>
          match embRes with
          | .error _ => st2
          | .ok embs => semChannel q embs st2
      else st2
    let results := if st3.isEmpty then recent.map (fun l => toRLog l 0.1) else st3
    .ok ((sortD scoreGe results).take 20)

/-! ## JSON extraction (`BaseLLM._extract_json` in `backend/llm/base.py`)

The text is a list of characters; `json.loads` is the external parser `parse`
(`none` models a raised `JSONDecodeError`), and the `re.search` for a fenced
code block plus `.group(1).strip()` is the oracle `fence` (`none` models "no
match").  The brace-substring computation is modelled concretely. -/

/-- Python `text.find(c)`: index of the first occurrence, `-1` if absent. -/
def pyFind (t : List Char) (c : Char) : ℤ :=
  match t.indexOf? c with
  | some i => (i : ℤ)
  | none => -1

/-- Python `text.rfind(c)`: index of the last occurrence, `-1` if absent. -/
def pyRFind (t : List Char) (c : Char) : ℤ :=
  match t.reverse.indexOf? c with
  | some i => (t.length : ℤ) - 1 - (i : ℤ)
  | none => -1

/-- `start = text.find('{'); end = text.rfind('}') + 1;
if start != -1 and end > start: text[start:end]`. -/
def braceSlice (t : List Char) : Option (List Char) :=
  let s := pyFind t '{'
  let e := pyRFind t '}' + 1
  if s ≠ -1 ∧ e > s then some ((t.drop s.toNat).take (e - s).toNat) else none

/-- `BaseLLM._extract_json`: replace the text by the stripped content of a
fenced code block when one matches, then `json.loads` it directly, and on a
`JSONDecodeError` parse the first-`{`-to-last-`}` substring; re-raise when no
such substring exists or its parse fails. -/
def extract_json {J : Type} (parse : List Char → Option J)
    (fence : List Char → Option (List Char)) (text : List Char) : Option J :=
  let t := match fence text with
    | some b => b
    | none => text
  match parse t with
  | some j => some j
  | none =>
    match braceSlice t with
    | some sub => parse sub
    | none => none

/-- The working text after strategy 1's fence extraction. -/
def workText (fence : List Char → Option (List Char)) (text : List Char) :
    List Char :=
  (fence text).getD text

/-- Spec-side combinator for the JSON-extraction claim: try the strategies in
order, first success wins, fail only when all fail. -/
def firstSome {J : Type} : List (Option J) → Option J
  | [] => none
  | o :: rest =>
    match o with
    | some j => some j
    | none => firstSome rest

/-- How one accumulated entry can evolve across the tag channel run on logs
whose ids are `S`: id (and, when untouched, the whole entry) preserved, score
non-decreasing, and only entries whose id occurs in `S` are touched. -/
def TagRel (S : List String) (a b : RLog) : Prop :=
  b.id = a.id ∧ a.retrieval_score ≤ b.retrieval_score
  ∧ (b = a ∨ a.id ∈ S)

/-- How one accumulated entry can evolve across the semantic channel: id
preserved, score non-decreasing and raised by at most 0.7, and only entries
for which some corpus tuple with the same id clears the 0.3 threshold are
touched. -/
def SemRel (q : List ℝ) (embs : List EmbRecord) (a b : RLog) : Prop :=
  b.id = a.id ∧ a.retrieval_score ≤ b.retrieval_score
  ∧ b.retrieval_score ≤ a.retrieval_score + 0.7
  ∧ (b = a ∨ ∃ e ∈ embs, e.id = a.id
      ∧ ∃ s, cosine_similarity q e.embedding = some s ∧ 0.3 < s)

/-! ## Concrete fixtures used by witnesses and counterexamples -/

/-- A minimal log record. -/
def mkLog (i : String) (ts : ℤ) : LogRecord := ⟨i, "", ts, [], "manual", none⟩

/-- Intent with every channel off. -/
def intentNone : Intent := ⟨none, [], false⟩

/-- Two logs, newest first. -/
def dbPair : DB := ⟨[mkLog "a" 2, mkLog "b" 1], []⟩

/-- A log tagged `react`. -/
def reactLog : LogRecord := ⟨"r1", "", 2, [⟨"react", "Framework"⟩], "manual", none⟩

/-- A log tagged `React Native`. -/
def rnLog : LogRecord := ⟨"r2", "", 1, [⟨"React Native", "Framework"⟩], "manual", none⟩

/-- Corpus with the two tagged logs. -/
def dbReact : DB := ⟨[reactLog, rnLog], []⟩

/-- One log with a one-dimensional embedding. -/
def dbSem : DB := ⟨[mkLog "s" 5], [("s", [1])]⟩

/-- The corpus embedding record of `dbSem`. -/
def embS : EmbRecord := ⟨"s", [1], "", 5, []⟩

/-- 21 logs, ids `"a"`–`"u"`, timestamps 21 down to 1 — all inside the
day-range `[dayMs 0, dayMs 1]`. -/
def db21 : DB :=
  ⟨[mkLog "a" 21, mkLog "b" 20, mkLog "c" 19, mkLog "d" 18, mkLog "e" 17,
    mkLog "f" 16, mkLog "g" 15, mkLog "h" 14, mkLog "i" 13, mkLog "j" 12,
    mkLog "k" 11, mkLog "l" 10, mkLog "m" 9, mkLog "n" 8, mkLog "o" 7,
    mkLog "p" 6, mkLog "q" 5, mkLog "r" 4, mkLog "s" 3, mkLog "t" 2,
    mkLog "u" 1], []⟩

/-- Intent asking only for day 0 (range made end-inclusive by the code). -/
def intent21 : Intent := ⟨some (0, 0), [], false⟩

/-! # Helper lemmas -/

theorem pairwise_of_forall {r : α → α → Prop} (h : ∀ a b, r a b) :
    ∀ l : List α, l.Pairwise r
  | [] => List.Pairwise.nil
  | a :: l => List.Pairwise.cons (fun b _ => h a b) (pairwise_of_forall h l)

theorem scoreGe_total : ∀ a b : RLog, scoreGe a b ∨ scoreGe b a :=
  fun a b => le_total b.retrieval_score a.retrieval_score

theorem scoreGe_trans : Transitive scoreGe :=
  fun _ _ _ h1 h2 => le_trans h2 h1

theorem tsGe_total : ∀ a b : LogRecord, tsGe a b ∨ tsGe b a :=
  fun a b => le_total b.timestamp a.timestamp

theorem tsGe_trans : Transitive tsGe :=
  fun _ _ _ h1 h2 => le_trans h2 h1

theorem containsId_iff {st : List RLog} {i : String} :
    containsId st i = true ↔ i ∈ idsOf st := by
  simp only [containsId, List.any_eq_true, decide_eq_true_eq, idsOf,
    List.mem_map]

theorem containsId_false_iff {st : List RLog} {i : String} :
    containsId st i = false ↔ i ∉ idsOf st := by
  rw [← containsId_iff]
  cases containsId st i <;> simp

theorem idsOf_append (st₁ st₂ : List RLog) :
    idsOf (st₁ ++ st₂) = idsOf st₁ ++ idsOf st₂ := by
  simp [idsOf]

theorem boostFirst_map_id (i : String) (δ : ℝ) :
    ∀ st : List RLog,
      (boostFirst i δ st).map (fun r => r.id) = st.map (fun r => r.id)
  | [] => rfl
  | rl :: rest => by
    by_cases h : rl.id = i
    · simp [boostFirst, h]
    · simp only [boostFirst, if_neg h, List.map_cons]
      rw [boostFirst_map_id i δ rest]

theorem boostFirst_idsOf (i : String) (δ : ℝ) (st : List RLog) :
    idsOf (boostFirst i δ st) = idsOf st :=
  boostFirst_map_id i δ st

theorem idsOf_dateStep (st : List RLog) (l : LogRecord) :
    idsOf (dateStep st l) =
      if containsId st l.id then idsOf st else idsOf st ++ [l.id] := by
  unfold dateStep
  split <;> simp [idsOf, toRLog]

theorem idsOf_tagStep (st : List RLog) (l : LogRecord) :
    idsOf (tagStep st l) =
      if containsId st l.id then idsOf st else idsOf st ++ [l.id] := by
  unfold tagStep
  split <;> simp [idsOf, toRLog, boostFirst_map_id]

theorem nodup_idsOf_fresh {st : List RLog} (h : (idsOf st).Nodup)
    {i : String} (hc : ¬ containsId st i = true) (x : RLog) (hx : x.id = i) :
    (idsOf (st ++ [x])).Nodup := by
  rw [idsOf_append]
  refine List.Nodup.append h (by simp [idsOf]) ?_
  intro a ha hb
  simp [idsOf, hx] at hb
  exact hc (containsId_iff.mpr (hb ▸ ha))

theorem nodup_idsOf_dateStep {st : List RLog} (h : (idsOf st).Nodup)
    (l : LogRecord) : (idsOf (dateStep st l)).Nodup := by
  unfold dateStep
  split
  · exact h
  · next hc => exact nodup_idsOf_fresh h hc _ rfl

theorem nodup_idsOf_dateChannel :
    ∀ (logs : List LogRecord) {st : List RLog}, (idsOf st).Nodup →
      (idsOf (dateChannel logs st)).Nodup
  | [], _, h => h
  | l :: ls, _, h => nodup_idsOf_dateChannel ls (nodup_idsOf_dateStep h l)

theorem nodup_idsOf_tagStep {st : List RLog} (h : (idsOf st).Nodup)
    (l : LogRecord) : (idsOf (tagStep st l)).Nodup := by
  unfold tagStep
  split
  · rw [show idsOf (boostFirst l.id 0.3 st) = idsOf st from boostFirst_idsOf _ _ st]
    exact h
  · next hc => exact nodup_idsOf_fresh h hc _ rfl

theorem nodup_idsOf_tagChannel :
    ∀ (logs : List LogRecord) {st : List RLog}, (idsOf st).Nodup →
      (idsOf (tagChannel logs st)).Nodup
  | [], _, h => h
  | l :: ls, _, h => nodup_idsOf_tagChannel ls (nodup_idsOf_tagStep h l)

theorem nodup_idsOf_semStep {st : List RLog} (h : (idsOf st).Nodup)
    (sim : ℝ) (e : EmbRecord) : (idsOf (semStep sim e st)).Nodup := by
  unfold semStep
  split
  · split
    · rw [show idsOf (boostFirst e.id (sim * 0.7) st) = idsOf st from
        boostFirst_idsOf _ _ st]
      exact h
    · next hc => exact nodup_idsOf_fresh h hc _ rfl
  · exact h

theorem nodup_idsOf_semChannel (q : List ℝ) :
    ∀ (embs : List EmbRecord) {st : List RLog}, (idsOf st).Nodup →
      (idsOf (semChannel q embs st)).Nodup
  | [], _, h => h
  | e :: rest, st, h => by
    unfold semChannel
    cases cosine_similarity q e.embedding with
    | none => exact h
    | some sim => exact nodup_idsOf_semChannel q rest (nodup_idsOf_semStep h sim e)

theorem nodup_idsOf_accumulate (intent : Intent) (qEmb : List ℝ) (db : DB) :
    (idsOf (accumulate intent qEmb db)).Nodup := by
  have h1 : (idsOf (stage1 intent db)).Nodup := by
    unfold stage1
    cases intent.date_range with
    | none => simp [idsOf]
    | some p =>
      cases p with
      | mk s e => exact nodup_idsOf_dateChannel _ (by simp [idsOf])
  have h2 : (idsOf (stage2 intent db)).Nodup := by
    unfold stage2
    split
    · exact h1
    · exact nodup_idsOf_tagChannel _ h1
  unfold accumulate
  split
  · exact nodup_idsOf_semChannel _ _ h2
  · exact h2

theorem nodup_idsOf_finalResults (intent : Intent) (qEmb : List ℝ) (db : DB)
    (h : (db.logs.map (fun l => l.id)).Nodup) :
    (idsOf (finalResults intent qEmb db)).Nodup := by
  unfold finalResults
  split
  · have hperm :
        List.Perm ((sortD tsGe db.logs).map (fun l => l.id))
          (db.logs.map (fun l => l.id)) :=
      (sortD_perm db.logs).map _
    have hs : ((sortD tsGe db.logs).map (fun l => l.id)).Nodup :=
      hperm.nodup_iff.mpr h
    have heq : idsOf ((get_all_logs 20 db).map (fun l => toRLog l 0.1))
        = ((sortD tsGe db.logs).map (fun l => l.id)).take 20 := by
      simp [idsOf, get_all_logs, List.map_take, toRLog, Function.comp_def]
    rw [heq]
    exact hs.sublist (List.take_sublist _ _)
  · exact nodup_idsOf_accumulate intent qEmb db

/-- **C1.** For every intent and corpus, the sequence returned by the
retrieval step contains no two entries with the same log id (given that the
stored `logs` rows have distinct primary-key ids): each id appears at most
once in the output, whichever channels produced it. -/
theorem claim_C1 (intent : Intent) (qEmb : List ℝ) (db : DB)
    (h : (db.logs.map (fun l => l.id)).Nodup) :
    ((retrieve_logs intent qEmb db).map (fun r => r.id)).Nodup := by
  have hfr := nodup_idsOf_finalResults intent qEmb db h
  have hperm :
      List.Perm (idsOf (sortD scoreGe (finalResults intent qEmb db)))
        (idsOf (finalResults intent qEmb db)) := by
    exact (sortD_perm _).map _
  have hs : (idsOf (sortD scoreGe (finalResults intent qEmb db))).Nodup :=
    hperm.nodup_iff.mpr hfr
  have heq : (retrieve_logs intent qEmb db).map (fun r => r.id)
      = (idsOf (sortD scoreGe (finalResults intent qEmb db))).take 20 := by
    simp [retrieve_logs, idsOf, List.map_take]
  rw [heq]
  exact hs.sublist (List.take_sublist _ _)

/-- Witness for C1 at a concrete corpus. -/
theorem claim_C1_witness :
    ((retrieve_logs intentNone [] dbPair).map (fun r => r.id)).Nodup :=
  claim_C1 intentNone [] dbPair (by decide)

/-- **C2.** The final retrieval result is the accumulated (post-fallback)
entries stable-sorted by `retrieval_score` descending and truncated to at
most 20 entries: the output is sorted descending, the sorted list is a
permutation of the accumulated list (which lists the date channel's entries
first, then the tag channel's fresh entries, then the semantic channel's,
respectively the fallback's), the output is its 20-prefix, and any two
accumulated entries whose scores do not force a swap — in particular
equal-score ties — keep their first-insertion order. -/
theorem claim_C2 (intent : Intent) (qEmb : List ℝ) (db : DB) :
    (retrieve_logs intent qEmb db).Pairwise scoreGe
    ∧ List.Perm (sortD scoreGe (finalResults intent qEmb db))
        (finalResults intent qEmb db)
    ∧ retrieve_logs intent qEmb db
        = (sortD scoreGe (finalResults intent qEmb db)).take 20
    ∧ ∀ a b : RLog, List.Sublist [a, b] (finalResults intent qEmb db) →
        scoreGe a b →
        List.Sublist [a, b] (sortD scoreGe (finalResults intent qEmb db)) := by
  refine ⟨?_, sortD_perm _, rfl, ?_⟩
  · exact (sortD_pairwise scoreGe_total scoreGe_trans _).sublist
      (List.take_sublist _ _)
  · intro a b hab hs
    exact sortD_stable hs hab

theorem accumulate_intentNone_dbPair : accumulate intentNone [] dbPair = [] :=
  rfl

theorem get_all_logs_dbPair : get_all_logs 20 dbPair = dbPair.logs := by
  unfold get_all_logs
  rw [sortD_eq_self_of_pairwise (by decide)]
  exact List.take_of_length_le (by simp [dbPair])

theorem finalResults_dbPair :
    finalResults intentNone [] dbPair
      = [toRLog (mkLog "a" 2) 0.1, toRLog (mkLog "b" 1) 0.1] := by
  unfold finalResults
  rw [accumulate_intentNone_dbPair, get_all_logs_dbPair]
  rfl

/-- Witness for C2: on a concrete two-log fallback run, the two equal-score
entries keep their insertion order through the stable sort. -/
theorem claim_C2_witness :
    List.Sublist [toRLog (mkLog "a" 2) 0.1, toRLog (mkLog "b" 1) 0.1]
      (sortD scoreGe (finalResults intentNone [] dbPair)) :=
  (claim_C2 intentNone [] dbPair).2.2.2 _ _
    (by rw [finalResults_dbPair])
    (le_refl (0.1 : ℝ))

theorem retrieve_fallback (intent : Intent) (qEmb : List ℝ) (db : DB)
    (h : accumulate intent qEmb db = []) :
    retrieve_logs intent qEmb db
      = (get_all_logs 20 db).map (fun l => toRLog l 0.1) := by
  have hfr : finalResults intent qEmb db
      = (get_all_logs 20 db).map (fun l => toRLog l 0.1) := by
    unfold finalResults
    rw [h]
    rfl
  unfold retrieve_logs
  rw [hfr]
  have hpw : ((get_all_logs 20 db).map (fun l => toRLog l 0.1)).Pairwise scoreGe :=
    List.pairwise_map.mpr
      (pairwise_of_forall (fun _ _ => le_refl (0.1 : ℝ)) _)
  rw [sortD_eq_self_of_pairwise hpw]
  apply List.take_of_length_le
  simp [get_all_logs]

theorem sortD_take_ne_nil {l : List RLog} (h : l ≠ []) :
    (sortD scoreGe l).take 20 ≠ [] := by
  intro hnil
  rcases List.take_eq_nil_iff.mp hnil with h20 | hs
  · simp at h20
  · exact h (List.eq_nil_of_length_eq_zero
      ((sortD_perm l).length_eq.symm.trans (by rw [hs]; rfl)))

/-- **C6.** If after all three channels the accumulated list is empty, the
fallback returns the up-to-20 most recent logs each scored exactly 0.1; and
on a non-empty corpus the retrieval step never returns an empty sequence. -/
theorem claim_C6 (intent : Intent) (qEmb : List ℝ) (db : DB) :
    (accumulate intent qEmb db = [] →
      retrieve_logs intent qEmb db
        = (get_all_logs 20 db).map (fun l => toRLog l 0.1)
      ∧ ∀ r ∈ retrieve_logs intent qEmb db, r.retrieval_score = 0.1)
    ∧ (db.logs ≠ [] → retrieve_logs intent qEmb db ≠ []) := by
  constructor
  · intro h
    have he := retrieve_fallback intent qEmb db h
    refine ⟨he, ?_⟩
    intro r hr
    rw [he] at hr
    rcases List.mem_map.mp hr with ⟨l, _, rfl⟩
    rfl
  · intro hne
    have hsne : sortD tsGe db.logs ≠ [] := by
      intro hnil
      exact hne (List.eq_nil_of_length_eq_zero
        ((sortD_perm db.logs).length_eq.symm.trans (by rw [hnil]; rfl)))
    have hfr : finalResults intent qEmb db ≠ [] := by
      unfold finalResults
      split
      · simp only [get_all_logs, ne_eq, List.map_eq_nil_iff]
        intro htake
        rcases List.take_eq_nil_iff.mp htake with h20 | hs
        · simp at h20
        · exact hsne hs
      · next hne2 =>
        intro hnil
        rw [hnil] at hne2
        simp at hne2
    unfold retrieve_logs
    exact sortD_take_ne_nil hfr

/-- Witness for C6 at a concrete corpus. -/
theorem claim_C6_witness :
    retrieve_logs intentNone [] dbPair
        = (get_all_logs 20 dbPair).map (fun l => toRLog l 0.1)
    ∧ retrieve_logs intentNone [] dbPair ≠ [] :=
  ⟨((claim_C6 intentNone [] dbPair).1 accumulate_intentNone_dbPair).1,
   (claim_C6 intentNone [] dbPair).2 (by simp [dbPair])⟩

/-- **C10.** When the fallback path executes, the returned sequence is exactly
the up-to-20 most recent logs, still ordered newest-first: every fallback
entry gets the same score 0.1, and the stable final sort preserves the
store's descending-timestamp order. -/
theorem claim_C10 (intent : Intent) (qEmb : List ℝ) (db : DB)
    (h : accumulate intent qEmb db = []) :
    retrieve_logs intent qEmb db
      = ((sortD tsGe db.logs).take 20).map (fun l => toRLog l 0.1)
    ∧ (retrieve_logs intent qEmb db).Pairwise
        (fun a b => b.timestamp ≤ a.timestamp) := by
  have he := retrieve_fallback intent qEmb db h
  constructor
  · rw [he]
    rfl
  · rw [he]
    have h1 : (sortD tsGe db.logs).Pairwise tsGe :=
      sortD_pairwise tsGe_total tsGe_trans _
    have h2 : ((sortD tsGe db.logs).take 20).Pairwise tsGe :=
      h1.sublist (List.take_sublist _ _)
    exact List.pairwise_map.mpr h2

/-- Witness for C10 at a concrete corpus. -/
theorem claim_C10_witness :
    retrieve_logs intentNone [] dbPair
      = ((sortD tsGe dbPair.logs).take 20).map (fun l => toRLog l 0.1)
    ∧ (retrieve_logs intentNone [] dbPair).Pairwise
        (fun a b => b.timestamp ≤ a.timestamp) :=
  claim_C10 intentNone [] dbPair accumulate_intentNone_dbPair

theorem tagPred_iff (names : List String) (l : LogRecord) :
    (l.tags.any (fun t => (names.map strLower).contains (strLower t.name))
        = true)
    ↔ ∃ t ∈ l.tags, ∃ n ∈ names, strLower t.name = strLower n := by
  rw [List.any_eq_true]
  constructor
  · rintro ⟨t, ht, hc⟩
    have hmem : strLower t.name ∈ names.map strLower := by simpa using hc
    rcases List.mem_map.mp hmem with ⟨n, hn, he⟩
    exact ⟨t, ht, n, hn, he.symm⟩
  · rintro ⟨t, ht, n, hn, he⟩
    refine ⟨t, ht, ?_⟩
    rw [he]
    have hmem : strLower n ∈ names.map strLower := List.mem_map.mpr ⟨n, hn, rfl⟩
    simpa using hmem

/-- **C8.** Tag retrieval matches on case-insensitive exact tag names, not
substrings: a stored log is returned for a set of intent tags iff one of its
tag names, lowercased, equals one of the intent tags, lowercased.  In
particular a log tagged `react` matches intent tag `React`, while a log
tagged `React Native` does not match intent tag `React`. -/
theorem claim_C8 :
    (∀ (names : List String) (db : DB) (l : LogRecord),
      l ∈ get_logs_by_tags names db ↔
        (l ∈ db.logs ∧ ∃ t ∈ l.tags, ∃ n ∈ names, strLower t.name = strLower n))
    ∧ reactLog ∈ get_logs_by_tags ["React"] dbReact
    ∧ rnLog ∉ get_logs_by_tags ["React"] dbReact := by
  refine ⟨?_, by decide, by decide⟩
  intro names db l
  simp only [get_logs_by_tags, List.mem_filter]
  rw [(sortD_perm db.logs).mem_iff, tagPred_iff]

/-- **C9.** `_extract_json` tries three strategies in order — (1) parse the
content of a fenced code block when one is present, (2) parse the working
text directly (when a fence is present, the working text *is* its extracted
content, so (1) and (2) coincide), (3) parse the first-`{`-to-last-`}`
substring of the working text — returns the first success, and fails
(raises) exactly when all three strategies fail. -/
theorem claim_C9 {J : Type} (parse : List Char → Option J)
    (fence : List Char → Option (List Char)) (text : List Char) :
    extract_json parse fence text
      = firstSome [(fence text).bind parse, parse (workText fence text),
          (braceSlice (workText fence text)).bind parse]
    ∧ (extract_json parse fence text = none ↔
        ((fence text).bind parse = none
         ∧ parse (workText fence text) = none
         ∧ (braceSlice (workText fence text)).bind parse = none)) := by
  rcases hf : fence text with _ | b
  · cases hp : parse text
    · cases hb : braceSlice text with
      | none => simp [extract_json, workText, firstSome, hf, hp, hb]
      | some sub =>
        cases hps : parse sub <;>
          simp [extract_json, workText, firstSome, hf, hp, hb, hps]
    · simp [extract_json, workText, firstSome, hf, hp]
  · cases hp : parse b
    · cases hb : braceSlice b with
      | none => simp [extract_json, workText, firstSome, hf, hp, hb]
      | some sub =>
        cases hps : parse sub <;>
          simp [extract_json, workText, firstSome, hf, hp, hb, hps]
    · simp [extract_json, workText, firstSome, hf, hp]

theorem dotP_nil_left (v : List ℝ) : dotP [] v = 0 := rfl

theorem dotP_nil_right (v : List ℝ) : dotP v [] = 0 := by
  cases v <;> rfl

theorem dotP_cons (x y : ℝ) (xs ys : List ℝ) :
    dotP (x :: xs) (y :: ys) = x * y + dotP xs ys := rfl

theorem dotP_self_nonneg : ∀ v : List ℝ, 0 ≤ dotP v v
  | [] => le_refl 0
  | x :: xs => by
    rw [dotP_cons]
    have := dotP_self_nonneg xs
    nlinarith [mul_self_nonneg x]

theorem dotP_self_pos : ∀ {v : List ℝ}, (∃ x ∈ v, x ≠ 0) → 0 < dotP v v := by
  intro v hv
  induction v with
  | nil => simp at hv
  | cons y ys ih =>
    rw [dotP_cons]
    rcases hv with ⟨x, hx, hx0⟩
    rcases List.mem_cons.mp hx with rfl | hx'
    · have := dotP_self_nonneg ys
      nlinarith [mul_self_pos.mpr hx0]
    · have := ih ⟨x, hx', hx0⟩
      nlinarith [mul_self_nonneg y]

theorem normv_eq_zero_iff (v : List ℝ) : normv v = 0 ↔ dotP v v = 0 :=
  Real.sqrt_eq_zero (dotP_self_nonneg v)

theorem normv_pos {v : List ℝ} (h : ∃ x ∈ v, x ≠ 0) : 0 < normv v :=
  Real.sqrt_pos.mpr (dotP_self_pos h)

theorem normv_mul_self (v : List ℝ) : normv v * normv v = dotP v v :=
  Real.mul_self_sqrt (dotP_self_nonneg v)

/-- Cauchy–Schwarz for `dotP` (no length hypothesis needed: `zipWith`
truncates, which only shrinks the left side). -/
theorem dotP_sq_le : ∀ (v1 v2 : List ℝ), (dotP v1 v2) ^ 2 ≤ dotP v1 v1 * dotP v2 v2
  | [], v2 => by simp [dotP_nil_left]
  | x :: xs, [] => by simp [dotP_nil_right]
  | x :: xs, y :: ys => by
    have hA := dotP_self_nonneg xs
    have hB := dotP_self_nonneg ys
    have hCS := dotP_sq_le xs ys
    rw [dotP_cons, dotP_cons, dotP_cons]
    rcases eq_or_lt_of_le hB with hB0 | hBpos
    · have hD2 : dotP xs ys ^ 2 ≤ 0 := by nlinarith [hCS]
      have hD : dotP xs ys = 0 :=
        (pow_eq_zero_iff (by norm_num)).mp (le_antisymm hD2 (sq_nonneg _))
      rw [hD, ← hB0]
      nlinarith [hA, sq_nonneg y]
    · have h1 : (0:ℝ) ≤ dotP xs xs * dotP ys ys - dotP xs ys ^ 2 := by
        nlinarith [hCS]
      have h2 : (0:ℝ) ≤ (y ^ 2 + dotP ys ys)
          * (dotP xs xs * dotP ys ys - dotP xs ys ^ 2) :=
        mul_nonneg (by positivity) h1
      nlinarith [sq_nonneg (x * dotP ys ys - y * dotP xs ys), h2, hBpos]

/-- Any similarity the code computes is at most 1. -/
theorem cosine_le_one {v1 v2 : List ℝ} {s : ℝ}
    (h : cosine_similarity v1 v2 = some s) : s ≤ 1 := by
  unfold cosine_similarity at h
  split at h
  · split at h
    · cases h
      norm_num
    · next hn =>
      push_neg at hn
      obtain ⟨h1, h2⟩ := hn
      have hp1 : 0 < normv v1 := lt_of_le_of_ne (Real.sqrt_nonneg _) (Ne.symm h1)
      have hp2 : 0 < normv v2 := lt_of_le_of_ne (Real.sqrt_nonneg _) (Ne.symm h2)
      cases h
      rw [div_le_one (by positivity)]
      calc dotP v1 v2 ≤ Real.sqrt ((dotP v1 v2) ^ 2) := by
            rw [Real.sqrt_sq_eq_abs]
            exact le_abs_self _
        _ ≤ Real.sqrt (dotP v1 v1 * dotP v2 v2) :=
            Real.sqrt_le_sqrt (dotP_sq_le v1 v2)
        _ = normv v1 * normv v2 := Real.sqrt_mul (dotP_self_nonneg v1) _
  · exact absurd h (by simp)

/-- C7 as stated is false on the code: `np.dot` raises `ValueError` on a
dimension mismatch, so `cosine_similarity` is not total on *all* input
vectors — here a 1-dimensional against a 2-dimensional vector. -/
theorem claim_C7_counterexample : cosine_similarity [1] [1, 2] = none := rfl

/-- **C7 (amended).** For input vectors of equal dimension,
`cosine_similarity` always returns a value and never divides by zero: if
either argument has norm 0 it returns exactly 0.0, and for any nonzero `v`,
`cosine_similarity v v = 1.0`. -/
theorem claim_C7 :
    (∀ v1 v2 : List ℝ, v1.length = v2.length →
      ∃ s, cosine_similarity v1 v2 = some s)
    ∧ (∀ v1 v2 : List ℝ, v1.length = v2.length →
        normv v1 = 0 ∨ normv v2 = 0 → cosine_similarity v1 v2 = some 0)
    ∧ (∀ v : List ℝ, (∃ x ∈ v, x ≠ 0) → cosine_similarity v v = some 1) := by
  refine ⟨?_, ?_, ?_⟩
  · intro v1 v2 hl
    unfold cosine_similarity
    rw [if_pos hl]
    split
    · exact ⟨0, rfl⟩
    · exact ⟨_, rfl⟩
  · intro v1 v2 hl h0
    unfold cosine_similarity
    rw [if_pos hl, if_pos h0]
  · intro v hv
    have hpos := dotP_self_pos hv
    have hn := normv_pos hv
    unfold cosine_similarity
    rw [if_pos rfl, if_neg (by push_neg; exact ⟨hn.ne', hn.ne'⟩),
      normv_mul_self, div_self hpos.ne']

/-- Witness for C7 at concrete vectors. -/
theorem claim_C7_witness :
    cosine_similarity [0] [5] = some 0
    ∧ cosine_similarity [3, 4] [3, 4] = some 1 :=
  ⟨claim_C7.2.1 [0] [5] rfl (Or.inl (by norm_num [normv, dotP])),
   claim_C7.2.2 [3, 4] ⟨3, by simp, by norm_num⟩⟩

/-- C5 as stated is false on the code: the tag channel's store call
`get_logs_by_tags(intent["tags"])` is not wrapped in `try/except`, so its
failure propagates out of `_retrieve_logs` — here a concrete invocation with
a failing tag store returns that error instead of continuing. -/
theorem claim_C5_counterexample :
    retrieve_logs_f ⟨none, ["x"], false⟩ (Except.ok [])
        (Except.error "tag store failure") (Except.ok []) (Except.ok []) []
      = Except.error "tag store failure" := rfl

/-- **C5 (amended).** Failures of the date channel's store/parse call and of
the semantic channel's embedding/store calls are caught and treated as
zero-result channels — retrieval behaves exactly as if those calls returned
nothing, and returns a result whenever the tag channel is skipped or its
store call succeeds.  A tag-channel store failure, by contrast, is not
caught (see the counterexample). -/
theorem claim_C5 (intent : Intent) (tagRes : Except String (List LogRecord))
    (recent : List LogRecord) (e₁ e₂ e₃ : String) :
    retrieve_logs_f intent (Except.error e₁) tagRes (Except.error e₂)
        (Except.error e₃) recent
      = retrieve_logs_f intent (Except.ok []) tagRes (Except.ok [])
          (Except.ok []) recent
    ∧ ((intent.tags.isEmpty = true ∨ ∃ tl, tagRes = Except.ok tl) →
        ∃ out, retrieve_logs_f intent (Except.error e₁) tagRes
            (Except.error e₂) (Except.error e₃) recent = Except.ok out) := by
  constructor
  · unfold retrieve_logs_f
    cases hdr : intent.date_range <;> cases htag : intent.tags.isEmpty <;>
      cases hrag : intent.needs_rag <;> cases tagRes <;> rfl
  · intro h
    unfold retrieve_logs_f
    cases htag : intent.tags.isEmpty
    · rcases h with h | ⟨tl, rfl⟩
      · exact absurd h (by rw [htag]; simp)
      · exact ⟨_, rfl⟩
    · exact ⟨_, rfl⟩

/-- Witness for C5 (amended) at a concrete invocation with failing date and
semantic calls. -/
theorem claim_C5_witness :
    ∃ out, retrieve_logs_f intentNone (Except.error "a") (Except.ok [])
        (Except.error "b") (Except.error "c") [] = Except.ok out :=
  (claim_C5 intentNone (Except.ok []) [] "a" "b" "c").2 (Or.inl rfl)

theorem containsId_append (st ext : List RLog) (i : String) :
    containsId (st ++ ext) i = (containsId st i || containsId ext i) := by
  simp [containsId, List.any_append]

theorem containsId_forall_ne {st : List RLog} {i : String}
    (h : containsId st i = false) : ∀ rl ∈ st, rl.id ≠ i := by
  intro rl hrl he
  rw [containsId_false_iff] at h
  exact h (List.mem_map.mpr ⟨rl, hrl, he⟩)

theorem scoreOf?_none {st : List RLog} {i : String}
    (h : containsId st i = false) : scoreOf? st i = none := by
  unfold scoreOf?
  rw [List.find?_eq_none.mpr ?_]
  · rfl
  · intro x hx
    simpa using containsId_forall_ne h x hx

theorem containsId_cons_false {rl : RLog} {rest : List RLog} {i : String}
    (h : containsId (rl :: rest) i = false) : containsId rest i = false := by
  rw [containsId_false_iff] at h ⊢
  intro hmem
  exact h (List.mem_cons_of_mem _ hmem)

theorem scoreOf?_boostFirst_self (i : String) (δ : ℝ) :
    ∀ st : List RLog,
      scoreOf? (boostFirst i δ st) i = (scoreOf? st i).map (fun x => x + δ)
  | [] => rfl
  | rl :: rest => by
    by_cases h : rl.id = i
    · unfold boostFirst
      rw [if_pos h]
      unfold scoreOf?
      rw [List.find?_cons_of_pos _ (by simp [h]),
        List.find?_cons_of_pos _ (by simp [h])]
      rfl
    · unfold boostFirst
      rw [if_neg h]
      unfold scoreOf?
      rw [List.find?_cons_of_neg _ (by simp [h]),
        List.find?_cons_of_neg _ (by simp [h])]
      exact scoreOf?_boostFirst_self i δ rest

theorem scoreOf?_boostFirst_other {i j : String} (hne : i ≠ j) (δ : ℝ) :
    ∀ st : List RLog, scoreOf? (boostFirst i δ st) j = scoreOf? st j
  | [] => rfl
  | rl :: rest => by
    by_cases h : rl.id = i
    · have hj : rl.id ≠ j := fun he => hne (h.symm.trans he)
      unfold boostFirst
      rw [if_pos h]
      unfold scoreOf?
      rw [List.find?_cons_of_neg _ (by simp [h, hne]),
        List.find?_cons_of_neg _ (by simp [hj])]
    · unfold boostFirst
      rw [if_neg h]
      unfold scoreOf?
      by_cases hj : rl.id = j
      · rw [List.find?_cons_of_pos _ (by simp [hj]),
          List.find?_cons_of_pos _ (by simp [hj])]
      · rw [List.find?_cons_of_neg _ (by simp [hj]),
          List.find?_cons_of_neg _ (by simp [hj])]
        exact scoreOf?_boostFirst_other hne δ rest

theorem scoreOf?_append_self :
    ∀ {st : List RLog} {i : String}, containsId st i = false →
      ∀ {x : RLog}, x.id = i → scoreOf? (st ++ [x]) i = some x.retrieval_score
  | [], i, _, x, hx => by
    unfold scoreOf?
    rw [List.nil_append, List.find?_cons_of_pos _ (by simp [hx])]
    rfl
  | rl :: rest, i, h, x, hx => by
    have hne : rl.id ≠ i :=
      containsId_forall_ne h rl (List.mem_cons_self rl rest)
    rw [List.cons_append]
    unfold scoreOf?
    rw [List.find?_cons_of_neg _ (by simp [hne])]
    exact scoreOf?_append_self (containsId_cons_false h) hx

theorem scoreOf?_append_other {j : String} {x : RLog} (hx : x.id ≠ j) :
    ∀ st : List RLog, scoreOf? (st ++ [x]) j = scoreOf? st j
  | [] => by
    unfold scoreOf?
    rw [List.nil_append, List.find?_cons_of_neg _ (by simp [hx])]
  | rl :: rest => by
    rw [List.cons_append]
    unfold scoreOf?
    by_cases hj : rl.id = j
    · rw [List.find?_cons_of_pos _ (by simp [hj]),
        List.find?_cons_of_pos _ (by simp [hj])]
    · rw [List.find?_cons_of_neg _ (by simp [hj]),
        List.find?_cons_of_neg _ (by simp [hj])]
      exact scoreOf?_append_other hx rest

theorem semStep_frame (sim : ℝ) (e : EmbRecord) (st : List RLog) {i : String}
    (hne : e.id ≠ i) :
    scoreOf? (semStep sim e st) i = scoreOf? st i
    ∧ containsId (semStep sim e st) i = containsId st i := by
  unfold semStep
  split
  · split
    · exact ⟨scoreOf?_boostFirst_other hne _ st, by
        rw [show containsId (boostFirst e.id (sim * 0.7) st) i
            = containsId st i from ?_]
        cases hc : containsId st i
        · rw [containsId_false_iff] at hc ⊢
          rwa [boostFirst_idsOf]
        · rw [containsId_iff] at hc ⊢
          rwa [boostFirst_idsOf]⟩
    · refine ⟨scoreOf?_append_other hne st, ?_⟩
      rw [containsId_append]
      have : containsId [⟨e.id, e.content, e.timestamp, e.tags, sim * 0.7⟩] i
          = false := by
        simp [containsId, hne]
      rw [this, Bool.or_false]
  · exact ⟨rfl, rfl⟩

theorem semChannel_frame (q : List ℝ) :
    ∀ (embs : List EmbRecord) (st : List RLog) {i : String},
      (∀ e ∈ embs, e.id ≠ i) →
      scoreOf? (semChannel q embs st) i = scoreOf? st i
      ∧ containsId (semChannel q embs st) i = containsId st i
  | [], _, _, _ => ⟨rfl, rfl⟩
  | e :: rest, st, i, h => by
    have hne : e.id ≠ i := h e (List.mem_cons_self e rest)
    unfold semChannel
    cases hc : cosine_similarity q e.embedding with
    | none => exact ⟨rfl, rfl⟩
    | some sim =>
      have hstep := semStep_frame sim e st hne
      have hrec := semChannel_frame q rest (semStep sim e st)
        (fun e' he' => h e' (List.mem_cons_of_mem _ he'))
      exact ⟨hrec.1.trans hstep.1, hrec.2.trans hstep.2⟩

/-- **C4.** In the semantic channel (assuming distinct corpus ids and
well-shaped embeddings so that no call raises): every corpus tuple whose
cosine similarity to the query embedding is `≤ 0.3` is discarded — the
accumulated score and membership of its id are untouched by the channel —
and every surviving tuple contributes exactly `similarity * 0.7` to its id's
score, added to the existing score if the id is already present and inserted
as the fresh score otherwise; the fresh contribution is at most 0.7. -/
theorem claim_C4 (qEmb : List ℝ) :
    ∀ (embs : List EmbRecord) (st : List RLog),
      (embs.map (fun e => e.id)).Nodup →
      (∀ e ∈ embs, (cosine_similarity qEmb e.embedding).isSome = true) →
      ∀ e ∈ embs, ∀ s, cosine_similarity qEmb e.embedding = some s →
        ((s ≤ 0.3 →
            scoreOf? (semChannel qEmb embs st) e.id = scoreOf? st e.id
            ∧ containsId (semChannel qEmb embs st) e.id = containsId st e.id)
         ∧ (0.3 < s →
            (containsId st e.id = true →
              scoreOf? (semChannel qEmb embs st) e.id
                = (scoreOf? st e.id).map (fun x => x + s * 0.7))
            ∧ (containsId st e.id = false →
              scoreOf? (semChannel qEmb embs st) e.id = some (s * 0.7)))
         ∧ s * 0.7 ≤ 0.7) := by
  intro embs
  induction embs with
  | nil =>
    intro st _ _ e he
    simp at he
  | cons e0 rest ih =>
    intro st hnd hsome e he s hs
    have hbound : s * 0.7 ≤ 0.7 := by nlinarith [cosine_le_one hs]
    rcases List.nodup_cons.mp hnd with ⟨hnotin, hndrest⟩
    have h0 : ∃ s0, cosine_similarity qEmb e0.embedding = some s0 := by
      have h := hsome e0 (List.mem_cons_self e0 rest)
      cases hc : cosine_similarity qEmb e0.embedding
      · rw [hc] at h
        simp at h
      · exact ⟨_, rfl⟩
    rcases h0 with ⟨s0, hs0⟩
    have hch : semChannel qEmb (e0 :: rest) st
        = semChannel qEmb rest (semStep s0 e0 st) := by
      rw [show semChannel qEmb (e0 :: rest) st
          = match cosine_similarity qEmb e0.embedding with
            | none => st
            | some sim => semChannel qEmb rest (semStep sim e0 st) from rfl,
        hs0]
    rcases List.mem_cons.mp he with heq | he'
    · subst heq
      rw [hs] at hs0
      injection hs0 with hss
      subst hss
      have hnotin2 : ∀ e' ∈ rest, e'.id ≠ e.id := by
        intro e' he2 hideq
        exact hnotin (List.mem_map.mpr ⟨e', he2, hideq⟩)
      have hframe := semChannel_frame qEmb rest (semStep s e st) hnotin2
      rw [hch]
      refine ⟨?_, ?_, hbound⟩
      · intro hle
        have hstep : semStep s e st = st := by
          unfold semStep
          rw [if_neg (not_lt.mpr hle)]
        rw [hstep] at hframe
        rw [hstep]
        exact hframe
      · intro hgt
        constructor
        · intro hcont
          have hstep : scoreOf? (semStep s e st) e.id
              = (scoreOf? st e.id).map (fun x => x + s * 0.7) := by
            unfold semStep
            rw [if_pos hgt, if_pos hcont]
            exact scoreOf?_boostFirst_self e.id (s * 0.7) st
          exact hframe.1.trans hstep
        · intro hcont
          have hstep : scoreOf? (semStep s e st) e.id = some (s * 0.7) := by
            unfold semStep
            rw [if_pos hgt, if_neg (by rw [hcont]; simp)]
            exact scoreOf?_append_self hcont rfl
          exact hframe.1.trans hstep
    · have hne : e0.id ≠ e.id := by
        intro hideq
        exact hnotin (List.mem_map.mpr ⟨e, he', hideq.symm⟩)
      have hstepf := semStep_frame s0 e0 st hne
      have ihh := ih (semStep s0 e0 st) hndrest
        (fun e' he2 => hsome e' (List.mem_cons_of_mem _ he2)) e he' s hs
      rw [hch]
      rw [hstepf.1, hstepf.2] at ihh
      exact ihh

theorem cosine_one_one : cosine_similarity [(1 : ℝ)] [1] = some 1 := by
  unfold cosine_similarity
  rw [if_pos rfl]
  have hd : dotP [(1 : ℝ)] [1] = 1 := by norm_num [dotP]
  have hn : normv [(1 : ℝ)] = 1 := by rw [normv, hd, Real.sqrt_one]
  rw [if_neg (by rw [hn]; norm_num), hd, hn]
  norm_num

/-- Witness for C4: one corpus tuple at similarity 1 enters fresh with score
`1 * 0.7`. -/
theorem claim_C4_witness :
    scoreOf? (semChannel [(1 : ℝ)] [embS] []) "s" = some (1 * 0.7) := by
  have h := claim_C4 [(1 : ℝ)] [embS] [] (by simp)
    (fun e he => by
      simp only [List.mem_singleton] at he
      subst he
      show (cosine_similarity [(1 : ℝ)] [1]).isSome = true
      rw [cosine_one_one]
      rfl)
    embS (by simp) 1 cosine_one_one
  exact (h.2.1 (by norm_num)).2 rfl

theorem forall₂_comp {α β γ : Type _} {R1 : α → β → Prop} {R2 : β → γ → Prop}
    {R3 : α → γ → Prop} (h : ∀ a b c, R1 a b → R2 b c → R3 a c) :
    ∀ {l : List α} {m : List β} {n : List γ},
      List.Forall₂ R1 l m → List.Forall₂ R2 m n → List.Forall₂ R3 l n := by
  intro l m n h1
  induction h1 generalizing n with
  | nil =>
    intro h2
    cases h2
    exact List.Forall₂.nil
  | cons hab htl ih =>
    intro h2
    cases h2 with
    | cons hbc htl2 => exact List.Forall₂.cons (h _ _ _ hab hbc) (ih htl2)

theorem forall₂_append_split {α β : Type _} {R : α → β → Prop} :
    ∀ {l1 l2 : List α} {m : List β}, List.Forall₂ R (l1 ++ l2) m →
      ∃ m1 m2, m = m1 ++ m2 ∧ List.Forall₂ R l1 m1 ∧ List.Forall₂ R l2 m2
  | [], _, m, h => ⟨[], m, rfl, List.Forall₂.nil, h⟩
  | a :: l1, l2, _, h => by
    cases h with
    | cons hab htl =>
      obtain ⟨m1, m2, rfl, h1, h2⟩ := forall₂_append_split htl
      exact ⟨_ :: m1, m2, rfl, List.Forall₂.cons hab h1, h2⟩

theorem forall₂_exists_mem {α β : Type _} {R : α → β → Prop} {l : List α}
    {m : List β} (h : List.Forall₂ R l m) :
    ∀ {a}, a ∈ l → ∃ b ∈ m, R a b := by
  induction h with
  | nil =>
    intro a ha
    simp at ha
  | cons hab htl ih =>
    intro x hx
    rcases List.mem_cons.mp hx with rfl | hx'
    · exact ⟨_, List.mem_cons_self _ _, hab⟩
    · obtain ⟨b, hb, hr⟩ := ih hx'
      exact ⟨b, List.mem_cons_of_mem _ hb, hr⟩

theorem forall₂_exists_mem_right {α β : Type _} {R : α → β → Prop}
    {l : List α} {m : List β} (h : List.Forall₂ R l m) :
    ∀ {b}, b ∈ m → ∃ a ∈ l, R a b := by
  induction h with
  | nil =>
    intro b hb
    simp at hb
  | cons hab htl ih =>
    intro y hy
    rcases List.mem_cons.mp hy with rfl | hy'
    · exact ⟨_, List.mem_cons_self _ _, hab⟩
    · obtain ⟨a, ha, hr⟩ := ih hy'
      exact ⟨a, List.mem_cons_of_mem _ ha, hr⟩

theorem boostFirst_forall₂ (i : String) {δ : ℝ} (h0 : 0 ≤ δ) :
    ∀ st : List RLog, List.Forall₂
      (fun a b => b.id = a.id ∧ a.retrieval_score ≤ b.retrieval_score
        ∧ b.retrieval_score ≤ a.retrieval_score + δ ∧ (b = a ∨ a.id = i))
      st (boostFirst i δ st)
  | [] => List.Forall₂.nil
  | rl :: rest => by
    by_cases h : rl.id = i
    · unfold boostFirst
      rw [if_pos h]
      exact List.Forall₂.cons
        ⟨rfl, le_add_of_nonneg_right h0, le_refl _, Or.inr h⟩
        (List.forall₂_same.mpr
          (fun x _ =>
            ⟨rfl, le_refl _, le_add_of_nonneg_right h0, Or.inl rfl⟩))
    · unfold boostFirst
      rw [if_neg h]
      exact List.Forall₂.cons
        ⟨rfl, le_refl _, le_add_of_nonneg_right h0, Or.inl rfl⟩
        (boostFirst_forall₂ i h0 rest)

theorem tagChannel_shape :
    ∀ (logs : List LogRecord) (st : List RLog),
      (logs.map (fun l => l.id)).Nodup →
      ∃ st' ext, tagChannel logs st = st' ++ ext
        ∧ List.Forall₂ (TagRel (logs.map (fun l => l.id))) st st'
        ∧ ∀ x ∈ ext, x.retrieval_score = 0.3
  | [], st, _ =>
    ⟨st, [], by simp [tagChannel],
      List.forall₂_same.mpr (fun x _ => ⟨rfl, le_refl _, Or.inl rfl⟩),
      by simp⟩
  | l :: ls, st, hnd => by
    rcases List.nodup_cons.mp hnd with ⟨hnotin, hndtl⟩
    have hch : tagChannel (l :: ls) st = tagChannel ls (tagStep st l) := rfl
    by_cases hc : containsId st l.id = true
    · have hstep : tagStep st l = boostFirst l.id 0.3 st := by
        unfold tagStep
        rw [if_pos hc]
      obtain ⟨st', ext, heq, hfor, hext⟩ :=
        tagChannel_shape ls (boostFirst l.id 0.3 st) hndtl
      refine ⟨st', ext, by rw [hch, hstep, heq], ?_, hext⟩
      have hb := boostFirst_forall₂ l.id (by norm_num : (0:ℝ) ≤ 0.3) st
      refine forall₂_comp ?_ hb hfor
      rintro a b c ⟨hid1, hle1, _, hd1⟩ ⟨hid2, hle2, hd2⟩
      refine ⟨hid2.trans hid1, le_trans hle1 hle2, ?_⟩
      rcases hd1 with rfl | hd1
      · rcases hd2 with rfl | hd2
        · exact Or.inl rfl
        · exact Or.inr (List.mem_cons_of_mem _ hd2)
      · exact Or.inr (hd1 ▸ List.mem_cons_self _ _)
    · have hstep : tagStep st l = st ++ [toRLog l 0.3] := by
        unfold tagStep
        rw [if_neg hc]
      obtain ⟨st', ext, heq, hfor, hext⟩ :=
        tagChannel_shape ls (st ++ [toRLog l 0.3]) hndtl
      obtain ⟨m1, m2, rfl, hf1, hf2⟩ := forall₂_append_split hfor
      cases m2 with
      | nil => exact absurd hf2.length_eq (by simp)
      | cons b m2' =>
        have hlen := hf2.length_eq
        cases m2' with
        | cons c m2'' => simp at hlen
        | nil =>
          have hR : TagRel (ls.map fun l => l.id) (toRLog l 0.3) b := by
            cases hf2 with
            | cons hR _ => exact hR
          have hb : b = toRLog l 0.3 := by
            rcases hR.2.2 with rfl | hmem
            · rfl
            · exact absurd hmem hnotin
          refine ⟨m1, b :: ext, ?_, ?_, ?_⟩
          · rw [hch, hstep, heq]
            simp
          · refine hf1.imp ?_
            rintro a c ⟨hid, hle, hd⟩
            refine ⟨hid, hle, ?_⟩
            rcases hd with rfl | hd
            · exact Or.inl rfl
            · exact Or.inr (List.mem_cons_of_mem _ hd)
          · intro x hx
            rcases List.mem_cons.mp hx with rfl | hx'
            · rw [hb]
              rfl
            · exact hext x hx'

theorem semChannel_shape (q : List ℝ) :
    ∀ (embs : List EmbRecord) (st : List RLog),
      (embs.map (fun e => e.id)).Nodup →
      ∃ st' ext, semChannel q embs st = st' ++ ext
        ∧ List.Forall₂ (SemRel q embs) st st'
        ∧ ∀ x ∈ ext, 0 ≤ x.retrieval_score ∧ x.retrieval_score ≤ 0.7
  | [], st, _ =>
    ⟨st, [], by simp [semChannel],
      List.forall₂_same.mpr
        (fun x _ => ⟨rfl, le_refl _,
          le_add_of_nonneg_right (by norm_num), Or.inl rfl⟩),
      by simp⟩
  | e0 :: rest, st, hnd => by
    rcases List.nodup_cons.mp hnd with ⟨hnotin, hndtl⟩
    have hch0 : semChannel q (e0 :: rest) st
        = match cosine_similarity q e0.embedding with
          | none => st
          | some sim => semChannel q rest (semStep sim e0 st) := rfl
    cases hcos : cosine_similarity q e0.embedding with
    | none =>
      refine ⟨st, [], by rw [hch0, hcos]; simp,
        List.forall₂_same.mpr
          (fun x _ => ⟨rfl, le_refl _,
            le_add_of_nonneg_right (by norm_num), Or.inl rfl⟩),
        by simp⟩
    | some s0 =>
      have hch : semChannel q (e0 :: rest) st
          = semChannel q rest (semStep s0 e0 st) := by
        rw [hch0, hcos]
      by_cases hgt : 0.3 < s0
      · have hs1 : 0 ≤ s0 * 0.7 := by nlinarith
        have hs2 : s0 * 0.7 ≤ 0.7 := by nlinarith [cosine_le_one hcos]
        by_cases hcont : containsId st e0.id = true
        · have hstep : semStep s0 e0 st = boostFirst e0.id (s0 * 0.7) st := by
            unfold semStep
            rw [if_pos hgt, if_pos hcont]
          obtain ⟨st', ext, heq, hfor, hext⟩ :=
            semChannel_shape q rest (boostFirst e0.id (s0 * 0.7) st) hndtl
          refine ⟨st', ext, by rw [hch, hstep, heq], ?_, hext⟩
          have hb := boostFirst_forall₂ e0.id hs1 st
          refine forall₂_comp ?_ hb hfor
          rintro a b c ⟨hid1, hle1, hub1, hd1⟩ ⟨hid2, hle2, hub2, hd2⟩
          refine ⟨hid2.trans hid1, le_trans hle1 hle2, ?_, ?_⟩
          · rcases hd1 with rfl | hd1
            · linarith
            · rcases hd2 with rfl | hd2
              · linarith
              · exfalso
                obtain ⟨e, he, heid, _⟩ := hd2
                exact hnotin
                  (List.mem_map.mpr ⟨e, he, heid.trans (hid1.trans hd1)⟩)
          · rcases hd1 with rfl | hd1
            · rcases hd2 with rfl | hd2
              · exact Or.inl rfl
              · obtain ⟨e, he, heid, hw⟩ := hd2
                exact Or.inr ⟨e, List.mem_cons_of_mem _ he, heid, hw⟩
            · exact Or.inr ⟨e0, List.mem_cons_self _ _, hd1.symm, s0, hcos, hgt⟩
        · have hstep : semStep s0 e0 st
              = st ++ [⟨e0.id, e0.content, e0.timestamp, e0.tags, s0 * 0.7⟩] := by
            unfold semStep
            rw [if_pos hgt, if_neg hcont]
          obtain ⟨st', ext, heq, hfor, hext⟩ :=
            semChannel_shape q rest
              (st ++ [⟨e0.id, e0.content, e0.timestamp, e0.tags, s0 * 0.7⟩]) hndtl
          obtain ⟨m1, m2, rfl, hf1, hf2⟩ := forall₂_append_split hfor
          cases m2 with
          | nil => exact absurd hf2.length_eq (by simp)
          | cons b m2' =>
            have hlen := hf2.length_eq
            cases m2' with
            | cons c m2'' => simp at hlen
            | nil =>
              have hR : SemRel q rest
                  (⟨e0.id, e0.content, e0.timestamp, e0.tags, s0 * 0.7⟩ : RLog)
                  b := by
                cases hf2 with
                | cons hR _ => exact hR
              have hb :
                  b = ⟨e0.id, e0.content, e0.timestamp, e0.tags, s0 * 0.7⟩ := by
                rcases hR.2.2.2 with rfl | hmem
                · rfl
                · exfalso
                  obtain ⟨e, he, heid, _⟩ := hmem
                  exact hnotin (List.mem_map.mpr ⟨e, he, heid⟩)
              refine ⟨m1, b :: ext, ?_, ?_, ?_⟩
              · rw [hch, hstep, heq]
                simp
              · refine hf1.imp ?_
                rintro a c ⟨hid, hle, hub, hd⟩
                refine ⟨hid, hle, hub, ?_⟩
                rcases hd with rfl | hd
                · exact Or.inl rfl
                · obtain ⟨e, he, heid, hw⟩ := hd
                  exact Or.inr ⟨e, List.mem_cons_of_mem _ he, heid, hw⟩
              · intro x hx
                rcases List.mem_cons.mp hx with rfl | hx'
                · rw [hb]
                  exact ⟨hs1, hs2⟩
                · exact hext x hx'
      · have hstep : semStep s0 e0 st = st := by
          unfold semStep
          rw [if_neg hgt]
        obtain ⟨st', ext, heq, hfor, hext⟩ := semChannel_shape q rest st hndtl
        refine ⟨st', ext, by rw [hch, hstep, heq], ?_, hext⟩
        refine hfor.imp ?_
        rintro a c ⟨hid, hle, hub, hd⟩
        refine ⟨hid, hle, hub, ?_⟩
        rcases hd with rfl | hd
        · exact Or.inl rfl
        · obtain ⟨e, he, heid, hw⟩ := hd
          exact Or.inr ⟨e, List.mem_cons_of_mem _ he, heid, hw⟩

theorem one_point_zero : (1.0 : ℝ) = 1 := by norm_num

theorem get_logs_by_tags_nil (db : DB) : get_logs_by_tags [] db = [] := by
  unfold get_logs_by_tags
  simp

theorem dateChannel_fresh :
    ∀ (logs : List LogRecord) (st : List RLog),
      (logs.map (fun l => l.id)).Nodup →
      (∀ l ∈ logs, containsId st l.id = false) →
      dateChannel logs st = st ++ logs.map (fun l => toRLog l 1.0)
  | [], st, _, _ => by simp [dateChannel]
  | l :: ls, st, hnd, hfresh => by
    rcases List.nodup_cons.mp hnd with ⟨hnotin, hndtl⟩
    have hc := hfresh l (List.mem_cons_self l ls)
    have hstep : dateStep st l = st ++ [toRLog l 1.0] := by
      unfold dateStep
      rw [if_neg (by rw [hc]; simp)]
    have hch : dateChannel (l :: ls) st = dateChannel ls (dateStep st l) := rfl
    have hfresh2 : ∀ l' ∈ ls, containsId (st ++ [toRLog l 1.0]) l'.id = false := by
      intro l' hl'
      have hne : l.id ≠ l'.id :=
        fun he => hnotin (List.mem_map.mpr ⟨l', hl', he.symm⟩)
      rw [containsId_append, hfresh l' (List.mem_cons_of_mem _ hl')]
      have h1 : containsId [toRLog l 1.0] l'.id = false := by
        simp [containsId, toRLog, hne]
      rw [h1]
      rfl
    rw [hch, hstep, dateChannel_fresh ls (st ++ [toRLog l 1.0]) hndtl hfresh2]
    simp

theorem nodup_filter_ids (db : DB)
    (hnd : (db.logs.map (fun l => l.id)).Nodup) (p : LogRecord → Bool) :
    (((sortD tsGe db.logs).filter p).map (fun l => l.id)).Nodup := by
  have hperm : ((sortD tsGe db.logs).map (fun l => l.id)).Nodup :=
    ((sortD_perm db.logs).map _).nodup_iff.mpr hnd
  exact hperm.sublist ((List.filter_sublist _).map _)

theorem nodup_embs_ids (db : DB)
    (hnd : (db.logs.map (fun l => l.id)).Nodup) :
    ((get_log_embeddings db).map (fun e => e.id)).Nodup := by
  have hperm : ((sortD tsGe db.logs).map (fun l => l.id)).Nodup :=
    ((sortD_perm db.logs).map _).nodup_iff.mpr hnd
  refine hperm.sublist ?_
  unfold get_log_embeddings
  generalize sortD tsGe db.logs = X
  induction X with
  | nil => simp
  | cons l ls ih =>
    rw [List.filterMap_cons]
    cases h : db.embeddings.lookup l.id with
    | none =>
      simp only [h, Option.map_none']
      exact List.Sublist.cons _ ih
    | some v =>
      simp only [h, Option.map_some', List.map_cons]
      exact ih.cons₂ _

theorem stage1_eq (intent : Intent) (db : DB) {s e : ℤ}
    (hdr : intent.date_range = some (s, e))
    (hnd : (db.logs.map (fun l => l.id)).Nodup) :
    stage1 intent db
      = (get_logs_by_date_range (dayMs s) (dayMs (e + 1)) db).map
          (fun l => toRLog l 1.0) := by
  have hndD : ((get_logs_by_date_range (dayMs s) (dayMs (e + 1)) db).map
      (fun l => l.id)).Nodup := nodup_filter_ids db hnd _
  unfold stage1
  rw [hdr]
  show dateChannel (get_logs_by_date_range (dayMs s) (dayMs (e + 1)) db) []
      = _
  rw [dateChannel_fresh _ [] hndD (fun l _ => rfl)]
  simp

theorem stage2_shape (intent : Intent) (db : DB)
    (hnd : (db.logs.map (fun l => l.id)).Nodup) :
    ∃ d2 ext2, stage2 intent db = d2 ++ ext2
      ∧ List.Forall₂
          (TagRel ((get_logs_by_tags intent.tags db).map (fun l => l.id)))
          (stage1 intent db) d2
      ∧ ∀ x ∈ ext2, x.retrieval_score = 0.3 := by
  unfold stage2
  split
  · exact ⟨stage1 intent db, [], by simp,
      List.forall₂_same.mpr (fun x _ => ⟨rfl, le_refl _, Or.inl rfl⟩),
      by simp⟩
  · exact tagChannel_shape _ _ (nodup_filter_ids db hnd _)

theorem accumulate_shape (intent : Intent) (qEmb : List ℝ) (db : DB)
    (hnd : (db.logs.map (fun l => l.id)).Nodup) :
    ∃ d3 ext3, accumulate intent qEmb db = d3 ++ ext3
      ∧ List.Forall₂ (fun a b => b.id = a.id
          ∧ a.retrieval_score ≤ b.retrieval_score
          ∧ b.retrieval_score ≤ a.retrieval_score + 0.7
          ∧ (b = a ∨ (intent.needs_rag = true
              ∧ ∃ e ∈ get_log_embeddings db, e.id = a.id
                ∧ ∃ s, cosine_similarity qEmb e.embedding = some s ∧ 0.3 < s)))
          (stage2 intent db) d3
      ∧ ∀ x ∈ ext3, 0 ≤ x.retrieval_score ∧ x.retrieval_score ≤ 0.7 := by
  unfold accumulate
  split
  · next hrag =>
    obtain ⟨d3, ext3, he, hfor, hext⟩ :=
      semChannel_shape qEmb _ (stage2 intent db) (nodup_embs_ids db hnd)
    refine ⟨d3, ext3, he, hfor.imp ?_, hext⟩
    rintro a b ⟨hid, hle, hub, hd⟩
    exact ⟨hid, hle, hub, hd.imp_right (fun hm => ⟨hrag, hm⟩)⟩
  · exact ⟨stage2 intent db, [], by simp,
      List.forall₂_same.mpr
        (fun x _ => ⟨rfl, le_refl _,
          le_add_of_nonneg_right (by norm_num), Or.inl rfl⟩),
      by simp⟩

/-- **C3 (amended).** If `intent.date_range = [s, e]` is set and the store
holds `N ≤ 20` logs with timestamp in the end-inclusive window (end advanced
one calendar day), then every one of those logs appears in the returned
sequence with `retrieval_score ≥ 1.0`, and with score exactly 1.0 when
neither the tag channel nor the semantic channel contributes to its id.
(The `N ≤ 20` bound is forced by the final truncation — see the
counterexample with 21 matching logs.) -/
theorem claim_C3 (intent : Intent) (qEmb : List ℝ) (db : DB) (s e : ℤ)
    (hdr : intent.date_range = some (s, e))
    (hnd : (db.logs.map (fun l => l.id)).Nodup)
    (hN : (get_logs_by_date_range (dayMs s) (dayMs (e + 1)) db).length ≤ 20) :
    ∀ l ∈ get_logs_by_date_range (dayMs s) (dayMs (e + 1)) db,
      ∃ r ∈ retrieve_logs intent qEmb db, r.id = l.id
        ∧ 1 ≤ r.retrieval_score
        ∧ ((intent.tags.isEmpty = true
              ∨ l.id ∉ (get_logs_by_tags intent.tags db).map (fun x => x.id)) →
           (intent.needs_rag = false
              ∨ ∀ em ∈ get_log_embeddings db, em.id = l.id →
                  ∀ sv, cosine_similarity qEmb em.embedding = some sv →
                    sv ≤ 0.3) →
           r.retrieval_score = 1) := by
  intro l hl
  obtain ⟨d2, ext2, hsplit2, hfor2, hext2⟩ := stage2_shape intent db hnd
  obtain ⟨d3, ext3, hsplit3, hfor3, hext3⟩ := accumulate_shape intent qEmb db hnd
  rw [hsplit2] at hfor3
  obtain ⟨m1, m2, hm, hf1, hf2⟩ := forall₂_append_split hfor3
  subst hm
  have hst1 := stage1_eq intent db hdr hnd
  have ha : toRLog l 1.0 ∈ stage1 intent db := by
    rw [hst1]
    exact List.mem_map.mpr ⟨l, hl, rfl⟩
  obtain ⟨b, hbmem, hRb⟩ := forall₂_exists_mem hfor2 ha
  obtain ⟨c, hcmem, hRc⟩ := forall₂_exists_mem hf1 hbmem
  have hb_id : b.id = l.id := hRb.1
  have hc_id : c.id = l.id := hRc.1.trans hb_id
  have hm1_low : ∀ x ∈ m1, 1 ≤ x.retrieval_score := by
    intro x hx
    obtain ⟨bb, hbb, hRbb⟩ := forall₂_exists_mem_right hf1 hx
    obtain ⟨aa, haa, hRaa⟩ := forall₂_exists_mem_right hfor2 hbb
    have haa_sc : aa.retrieval_score = 1 := by
      rw [hst1] at haa
      obtain ⟨l0, _, rfl⟩ := List.mem_map.mp haa
      exact one_point_zero
    calc (1:ℝ) = aa.retrieval_score := haa_sc.symm
      _ ≤ bb.retrieval_score := hRaa.2.1
      _ ≤ x.retrieval_score := hRbb.2.1
  have hm2_up : ∀ x ∈ m2, x.retrieval_score ≤ 1 := by
    intro x hx
    obtain ⟨bb, hbb, hRbb⟩ := forall₂_exists_mem_right hf2 hx
    have hbb_sc : bb.retrieval_score = 0.3 := hext2 bb hbb
    have hub := hRbb.2.2.1
    rw [hbb_sc] at hub
    linarith
  have hext3_up : ∀ x ∈ ext3, x.retrieval_score ≤ 1 := fun x hx => by
    have := (hext3 x hx).2
    linarith
  have hm1len : m1.length
      = (get_logs_by_date_range (dayMs s) (dayMs (e + 1)) db).length := by
    have h1 := hf1.length_eq
    have h2 := hfor2.length_eq
    rw [hst1] at h2
    simp only [List.length_map] at h2
    omega
  have hDpos :
      0 < (get_logs_by_date_range (dayMs s) (dayMs (e + 1)) db).length :=
    List.length_pos_of_mem hl
  have hm1ne : m1 ≠ [] := by
    intro h0
    rw [h0] at hm1len
    simp at hm1len
    omega
  have haccne : accumulate intent qEmb db ≠ [] := by
    rw [hsplit3]
    intro hnil
    rcases List.append_eq_nil.mp hnil with ⟨h12, _⟩
    rcases List.append_eq_nil.mp h12 with ⟨h1, _⟩
    exact hm1ne h1
  have hfr : finalResults intent qEmb db = accumulate intent qEmb db := by
    unfold finalResults
    rw [if_neg (by simpa using haccne)]
  have hrel : ∀ a ∈ m1, ∀ x ∈ m2 ++ ext3, scoreGe a x := by
    intro a hax x hx
    have h1 := hm1_low a hax
    have h2 : x.retrieval_score ≤ 1 := by
      rcases List.mem_append.mp hx with hx' | hx'
      · exact hm2_up x hx'
      · exact hext3_up x hx'
    exact le_trans h2 h1
  have hsort : sortD scoreGe (accumulate intent qEmb db)
      = sortD scoreGe m1 ++ sortD scoreGe (m2 ++ ext3) := by
    rw [hsplit3, List.append_assoc]
    exact sortD_append hrel
  have htake : retrieve_logs intent qEmb db
      = sortD scoreGe m1
        ++ (sortD scoreGe (m2 ++ ext3)).take (20 - m1.length) := by
    unfold retrieve_logs
    rw [hfr, hsort, List.take_append_eq_append_take]
    congr 1
    · exact List.take_of_length_le
        (by rw [(sortD_perm m1).length_eq, hm1len]; exact hN)
    · rw [(sortD_perm m1).length_eq]
  have hc_in : c ∈ retrieve_logs intent qEmb db := by
    rw [htake]
    exact List.mem_append.mpr (Or.inl ((sortD_perm m1).mem_iff.mpr hcmem))
  refine ⟨c, hc_in, hc_id, hm1_low c hcmem, ?_⟩
  intro hnoTag hnoSem
  have hbeq : b = toRLog l 1.0 := by
    rcases hRb.2.2 with rfl | hmem
    · rfl
    · exfalso
      rcases hnoTag with htag | hnot
      · have htags : intent.tags = [] := by
          rwa [List.isEmpty_iff] at htag
        rw [htags, get_logs_by_tags_nil] at hmem
        simp at hmem
      · exact hnot hmem
  have hceq : c = b := by
    rcases hRc.2.2.2 with rfl | hmem
    · rfl
    · exfalso
      obtain ⟨hragtrue, em, hem, hemid, sv, hsv, hsvgt⟩ := hmem
      rcases hnoSem with hrag | hall
      · rw [hragtrue] at hrag
        simp at hrag
      · have hemid' : em.id = l.id := hemid.trans hb_id
        have := hall em hem hemid' sv hsv
        linarith
  rw [hceq, hbeq]
  exact one_point_zero

theorem date_range_db21 :
    get_logs_by_date_range (dayMs 0) (dayMs (0 + 1)) db21 = db21.logs := by
  unfold get_logs_by_date_range
  rw [sortD_eq_self_of_pairwise (by decide : db21.logs.Pairwise tsGe)]
  exact List.filter_eq_self.mpr (by decide)

/-- C3 as stated is false on the code: with `date_range = [0, 0]` and a
corpus of 21 logs all inside that window, all 21 match and are scored 1.0,
but the final truncation keeps only 20 — the oldest matching log (id `"u"`)
does not appear in the returned sequence. -/
theorem claim_C3_counterexample :
    (get_logs_by_date_range (dayMs 0) (dayMs (0 + 1)) db21).length = 21
    ∧ mkLog "u" 1 ∈ get_logs_by_date_range (dayMs 0) (dayMs (0 + 1)) db21
    ∧ ∀ r ∈ retrieve_logs intent21 [] db21, r.id ≠ "u" := by
  have hst1 : stage1 intent21 db21 = db21.logs.map (fun l => toRLog l 1.0) := by
    rw [stage1_eq intent21 db21 rfl (by decide), date_range_db21]
  have hacc : accumulate intent21 [] db21 = stage1 intent21 db21 := rfl
  have hfr : finalResults intent21 [] db21
      = db21.logs.map (fun l => toRLog l 1.0) := by
    unfold finalResults
    rw [hacc, hst1]
    rw [if_neg (by simp [db21])]
  have hsorted : sortD scoreGe (db21.logs.map (fun l => toRLog l 1.0))
      = db21.logs.map (fun l => toRLog l 1.0) :=
    sortD_eq_self_of_pairwise
      (List.pairwise_map.mpr (pairwise_of_forall (fun _ _ => le_refl _) _))
  have hretr : retrieve_logs intent21 [] db21
      = (db21.logs.take 20).map (fun l => toRLog l 1.0) := by
    unfold retrieve_logs
    rw [hfr, hsorted, ← List.map_take]
  refine ⟨by rw [date_range_db21]; rfl, by rw [date_range_db21]; decide, ?_⟩
  intro r hr
  rw [hretr] at hr
  obtain ⟨l0, hl0, rfl⟩ := List.mem_map.mp hr
  intro he
  exact (by decide : ∀ x ∈ db21.logs.take 20, x.id ≠ "u") l0 hl0 he

/-- Witness for C3 (amended) at a concrete two-log corpus fully inside the
window. -/
theorem claim_C3_witness :
    ∃ r ∈ retrieve_logs intent21 [] dbPair, r.id = (mkLog "a" 2).id
      ∧ 1 ≤ r.retrieval_score
      ∧ ((intent21.tags.isEmpty = true
            ∨ (mkLog "a" 2).id
                ∉ (get_logs_by_tags intent21.tags dbPair).map (fun x => x.id)) →
         (intent21.needs_rag = false
            ∨ ∀ em ∈ get_log_embeddings dbPair, em.id = (mkLog "a" 2).id →
                ∀ sv, cosine_similarity [] em.embedding = some sv →
                  sv ≤ 0.3) →
         r.retrieval_score = 1) :=
  claim_C3 intent21 [] dbPair 0 0 rfl (by decide) (by decide)
    (mkLog "a" 2) (by decide)

end DevLog
